import Mathlib

/-!
Verification development for the ETF_Quant repository.

The repository's core consists of:
  * `data_fetcher.py` — per-instrument daily K-line fetching, resampling to
    weekly bars, SMA-60 relation/crossover and weekly MACD computation, and the
    orchestrating `fetch_all_etf_data` loop with progress reporting, plus the
    local CSV cache `save_to_csv`;
  * `github_storage.py` — a remote CSV store accessed through the GitHub
    contents API: `read_csv_from_github`, `_get_file_sha`,
    `write_csv_to_github` and the merge routine `append_data_to_github`.

This file shallowly embeds those functions and proves properties about them.
Conventions of the embedding:
  * trading dates are `Nat` (ISO `YYYY-MM-DD` strings compare lexicographically
    exactly as their day ordinals, so the order structure is preserved);
  * prices are `ℚ` (Python floats carry no claim-relevant rounding here; the
    `NaN` produced by `pd.to_numeric(errors="coerce")` on unparseable input is
    outside this model, so `np.isnan` branches are never taken);
  * the remote store is a versioned blob as the GitHub contents API presents
    it: a file with contents and an opaque revision token (modelled `Nat`),
    where a `PUT` conditioned on a token succeeds exactly when the token still
    matches the current revision;
  * `pandas.sort_values` is modelled as a stable sort by the key column.
-/

namespace ETFQuant

/-! ### Stable insertion sort by a `Nat` key

`pandas.DataFrame.sort_values("日期")` / `sort_values("date")` sorts rows by a
single column; we model it generically over a key function. -/

def insertK {α : Type} (key : α → Nat) (x : α) : List α → List α
  | [] => [x]
  | y :: ys => if key x ≤ key y then x :: y :: ys else y :: insertK key x ys

def sortK {α : Type} (key : α → Nat) : List α → List α
  | [] => []
  | x :: xs => insertK key x (sortK key xs)

/-! ### `github_storage.py` — the remote CSV store

A persisted row: the CSV columns are 日期 (date), 代码 (instrument code), and
eleven further columns (name, fees, indicator values) that the storage layer
never inspects; those are bundled as one opaque `rest` payload. -/

structure SRow where
  date : Nat
  code : String
  rest : String
deriving DecidableEq, Repr

/-- The remote file as the GitHub contents API presents it: an optional file
content plus an opaque revision token (the file's SHA), modelled as a counter
that advances on every successful write. -/
structure Store where
  file : Option (List SRow)
  version : Nat
deriving DecidableEq, Repr

/-- `read_csv_from_github`: returns the parsed rows, or an empty frame when
the file does not exist (HTTP 404). -/
def read_csv_from_github (s : Store) : List SRow :=
  s.file.getD []

/-- `_get_file_sha`: the file's current SHA, `None` when the file is absent. -/
def get_file_sha (s : Store) : Option Nat :=
  s.file.map fun _ => s.version

/-- The GitHub contents `PUT` endpoint: an update (SHA supplied) succeeds only
if the SHA still matches the current revision; a create (no SHA) succeeds only
if the file is absent; otherwise the API answers 409/422 and the code returns
failure. -/
def githubPut (s : Store) (rows : List SRow) (sha : Option Nat) : Bool × Store :=
  match s.file, sha with
  | some _, some v =>
      if v = s.version then (true, ⟨some rows, s.version + 1⟩) else (false, s)
  | some _, none => (false, s)
  | none, some _ => (false, s)
  | none, none => (true, ⟨some rows, s.version + 1⟩)

/-- `write_csv_to_github`: refuses an empty frame, otherwise fetches the
current SHA with `_get_file_sha` and issues the conditional `PUT`.  `mid`
models any writes performed by other agents between the SHA fetch and the
`PUT` (identity when the write runs unraced). -/
def write_csv_to_github (s : Store) (mid : Store → Store) (df : Option (List SRow)) :
    Bool × Store :=
  match df with
  | none => (false, s)
  | some rows =>
      if rows = [] then (false, s)
      else githubPut (mid s) rows (get_file_sha s)

/-- The combine step of `append_data_to_github` (lines 157–167): drop every
existing row whose 日期 occurs in the new data, append the new rows, and sort
the result by 日期. -/
def mergeRows (existing new_data : List SRow) : List SRow :=
  let combined :=
    if existing ≠ [] then
      existing.filter (fun r => !(decide (r.date ∈ new_data.map fun n => n.date)))
        ++ new_data
    else new_data
  sortK (fun r => r.date) combined

/-- `append_data_to_github`: refuses empty new data, reads the existing rows,
merges, and writes back through `write_csv_to_github`.  `midRead` models other
agents' writes between the initial read and the SHA fetch, `midSha` between
the SHA fetch and the `PUT`; both are identity for an unraced run. -/
def append_data_to_github (s : Store) (midRead midSha : Store → Store)
    (new_data : Option (List SRow)) : Bool × Store :=
  match new_data with
  | none => (false, s)
  | some nd =>
      if nd = [] then (false, s)
      else write_csv_to_github (midRead s) midSha (some (mergeRows (read_csv_from_github s) nd))

/-- `save_to_csv` (`data_fetcher.py`): the local CSV cache.  When the file
exists it removes only the rows whose 日期 equals `new_data["日期"].iloc[0]` —
the date of the FIRST new row — then appends all new rows (no sort). -/
def save_to_csv (existing_file : Option (List SRow)) (new_data : Option (List SRow)) :
    Option (List SRow) :=
  match new_data with
  | none => existing_file
  | some nd =>
      if nd = [] then existing_file
      else
        match existing_file with
        | some existing =>
            let latest_date := (nd.headD ⟨0, "", ""⟩).date
            some (existing.filter (fun r => r.date ≠ latest_date) ++ nd)
        | none => some nd

/-- The PersistedDataset invariant: at most one row per (instrument, date). -/
def uniqueKeys (l : List SRow) : Prop :=
  (l.map fun r => (r.date, r.code)).Nodup

instance (l : List SRow) : Decidable (uniqueKeys l) := by
  unfold uniqueKeys; infer_instance

/-! ### `data_fetcher.py` — bars and indicator computations -/

/-- A daily OHLCV bar.  `open` is a Lean keyword, hence the field `open_`. -/
structure DBar where
  date : Nat
  open_ : ℚ
  high : ℚ
  low : ℚ
  close : ℚ
  volume : ℚ
deriving DecidableEq, Repr

/-- Python `round(x, 4)`.  Modelled as round-half-up on `ℚ`; Python's float
`round` is round-half-to-even, a difference visible only on exact ties, which
no theorem below depends on. -/
def round4 (x : ℚ) : ℚ :=
  (round (x * 10000) : ℚ) / 10000

/-- `get_etf_daily_kline_sina`: the upstream call `ak.fund_etf_hist_sina` either
fails (any exception gives `None`) or returns a frame; a nonempty frame has its
`close`/`date` columns coerced (identity in this typed model) and is sorted by
date with `sort_values("date")`; an empty frame is returned as is.  Note the
source applies no duplicate-date removal. -/
def get_etf_daily_kline_sina (upstream : Option (List DBar)) : Option (List DBar) :=
  match upstream with
  | none => none
  | some df => if df.isEmpty then some df else some (sortK (fun b => b.date) df)

/-- One weekly bar produced by `resample_daily_to_weekly`. -/
structure WBar where
  week : Nat
  open_ : ℚ
  high : ℚ
  low : ℚ
  close : ℚ
  volume : ℚ
deriving DecidableEq, Repr

/-- The calendar-week bin of a trading day, for pandas `resample("W")` (weekly
bins closing on Sunday).  Dates count days from 1970-01-01, a Thursday, so the
Sundays are days 3, 10, 17, …; day `d` falls in bin `(d + 3) / 7`. -/
def weekKey (d : Nat) : Nat := (d + 3) / 7

def qmax : List ℚ → ℚ
  | [] => 0
  | x :: xs => xs.foldl max x

def qmin : List ℚ → ℚ
  | [] => 0
  | x :: xs => xs.foldl min x

/-- The rows of one weekly bin. -/
def weekGroup (df : List DBar) (w : Nat) : List DBar :=
  df.filter (fun b => weekKey b.date == w)

/-- pandas `agg`: open = first, high = max, low = min, close = last,
volume = sum over the bin (the bin is nonempty for every key that occurs). -/
def aggWeek (df : List DBar) (w : Nat) : WBar :=
  let g := weekGroup df w
  { week := w
    open_ := (g.map fun b => b.open_).headD 0
    high := qmax (g.map fun b => b.high)
    low := qmin (g.map fun b => b.low)
    close := (g.map fun b => b.close).getLastD 0
    volume := (g.map fun b => b.volume).sum }

/-- The distinct weekly bins present, in order of first appearance (ascending,
as the input is date-sorted); `.dropna()` discards empty bins, so only bins
with data appear. -/
def weekKeys (df : List DBar) : List Nat :=
  (df.map fun b => weekKey b.date).dedup

/-- `resample_daily_to_weekly`: `None`/empty input gives `None`, otherwise the
weekly aggregation of each populated calendar-week bin. -/
def resample_daily_to_weekly (daily_df : Option (List DBar)) : Option (List WBar) :=
  match daily_df with
  | none => none
  | some df => if df.isEmpty then none else some ((weekKeys df).map (aggWeek df))

/-- The trailing `n` elements (`rolling(n)` window ending at the last row). -/
def lastN (n : Nat) (l : List ℚ) : List ℚ :=
  l.drop (l.length - n)

/-- `close.rolling(window=60).mean().iloc[-1]`: mean of the trailing 60
closes. -/
def sma60_at_end (close : List ℚ) : ℚ :=
  (lastN 60 close).sum / 60

/-- `calculate_ma60_relation`.  Input: the daily frame (or `None`); output:
`(latest_close, ma60, relation, cross_signal)`.  The `np.isnan` guards of the
source fire only for unparseable closes, which the `ℚ` model excludes, so they
are never taken here. -/
def calculate_ma60_relation (daily_df : Option (List DBar)) :
    Option ℚ × Option ℚ × String × String :=
  match daily_df with
  | none => (none, none, "N/A", "")
  | some df =>
    let close := df.map fun b => b.close
    if df.length < 61 then
      if 60 ≤ df.length then
        let latest_close := round4 (close.getLastD 0)
        let latest_ma60 := round4 (sma60_at_end close)
        let relation := if latest_close ≥ latest_ma60 then "≥ 60日均线" else "< 60日均线"
        (some latest_close, some latest_ma60, relation, "")
      else (none, none, "N/A", "")
    else
      let latest_close := round4 (close.getLastD 0)
      let latest_ma60 := round4 (sma60_at_end close)
      let relation := if latest_close ≥ latest_ma60 then "≥ 60日均线" else "< 60日均线"
      let prev_close := close.dropLast.getLastD 0
      let prev_ma60 := sma60_at_end close.dropLast
      let cross_signal :=
        if ¬ prev_close ≥ prev_ma60 ∧ latest_close ≥ latest_ma60 then "上穿60日均线"
        else if prev_close ≥ prev_ma60 ∧ ¬ latest_close ≥ latest_ma60 then "下穿60日均线"
        else ""
      (some latest_close, some latest_ma60, relation, cross_signal)

/-- The recursive step of pandas `ewm(span, adjust=False).mean()`:
`e' = a * y + (1 - a) * e` with smoothing factor `a`. -/
def ewmGo (a e : ℚ) : List ℚ → List ℚ
  | [] => []
  | y :: ys =>
      let e' := a * y + (1 - a) * e
      e' :: ewmGo a e' ys

/-- pandas `ewm(span=span, adjust=False).mean()`: seeded by the first value,
smoothing factor `2 / (span + 1)`. -/
def ewm_mean (span : Nat) (l : List ℚ) : List ℚ :=
  match l with
  | [] => []
  | x :: xs => x :: ewmGo (2 / ((span : ℚ) + 1)) x xs

/-- `calculate_weekly_macd` with its default parameters `fast=12, slow=26,
signal=9` (the source never calls it with others).  Output:
`(dif, dea, macd_hist, color_change)`; with fewer than `26 + 9` weekly bars
all three numbers are `None` and the turn signal is the empty string. -/
def calculate_weekly_macd (weekly_df : Option (List WBar)) :
    Option ℚ × Option ℚ × Option ℚ × String :=
  match weekly_df with
  | none => (none, none, none, "")
  | some w =>
    if w.length < 26 + 9 then (none, none, none, "")
    else
      let close := w.map fun b => b.close
      let ema_fast := ewm_mean 12 close
      let ema_slow := ewm_mean 26 close
      let dif := ema_fast.zipWith (fun a b => a - b) ema_slow
      let dea := ewm_mean 9 dif
      let macd_hist := (dif.zipWith (fun a b => a - b) dea).map fun q => 2 * q
      let curr_macd := macd_hist.getLastD 0
      let prev_macd := if 2 ≤ macd_hist.length then macd_hist.dropLast.getLastD 0 else 0
      let color_change :=
        if prev_macd > 0 ∧ curr_macd ≤ 0 then "红转绿"
        else if prev_macd ≤ 0 ∧ curr_macd > 0 then "绿转红"
        else ""
      (some (round4 (dif.getLastD 0)), some (round4 (dea.getLastD 0)),
        some (round4 curr_macd), color_change)

/-! ### `fetch_all_etf_data` — the per-instrument result rows (Step 5) -/

/-- One row of the snapshot frame built at lines 350–388 of
`data_fetcher.py`. -/
structure IndicatorRow where
  date : Nat
  code : String
  name : String
  mgmt_fee : String
  custody_fee : String
  latest_close : Option ℚ
  ma60 : Option ℚ
  ma60_rel : String
  ma_cross : String
  dif : Option ℚ
  dea : Option ℚ
  macd : Option ℚ
  macd_turn : String
deriving DecidableEq, Repr

/-- The body of the Step-5 loop for one instrument: name and fees fall back to
the code / "N/A", the indicators come from the instrument's own daily data,
and the row date is the instrument's last trading day, or today's date when no
daily data was obtained. -/
def buildRow (name_map : String → Option String)
    (fees_cache : String → Option (String × String)) (today : Nat)
    (d_df : Option (List DBar)) (code : String) : IndicatorRow :=
  let r := calculate_ma60_relation d_df
  let m := calculate_weekly_macd (resample_daily_to_weekly d_df)
  { date :=
      match d_df with
      | some l => match l.getLast? with
          | some b => b.date
          | none => today
      | none => today
    code := code
    name := (name_map code).getD code
    mgmt_fee := ((fees_cache code).map Prod.fst).getD "N/A"
    custody_fee := ((fees_cache code).map Prod.snd).getD "N/A"
    latest_close := r.1
    ma60 := r.2.1
    ma60_rel := r.2.2.1
    ma_cross := r.2.2.2
    dif := m.1
    dea := m.2.1
    macd := m.2.2.1
    macd_turn := m.2.2.2 }

/-- The snapshot rows produced by `fetch_all_etf_data`: the Step-5 loop runs
over every code of `ETF_CODES` unconditionally; `daily_data` is the dictionary
filled by the concurrent Step-2 fetch (`None` for a failed fetch), and the
weekly data of Step 3 is resampled from it per instrument. -/
def fetch_all_etf_data_rows (codes : List String) (name_map : String → Option String)
    (fees_cache : String → Option (String × String))
    (daily_data : String → Option (List DBar)) (today : Nat) : List IndicatorRow :=
  codes.map fun code => buildRow name_map fees_cache today (daily_data code) code

/-! ### `fetch_all_etf_data` — the progress fractions

The `_progress` helper clamps every fraction to at most `0.99`; the final
`progress_callback(1.0, …)` call bypasses it.  During the two concurrent
phases a shared counter is incremented once per completed task and a fraction
is emitted whenever the counter is a multiple of 50 or has reached the phase
total — the emitted value depends only on the counter, never on which
instrument completed, so the sequence is the same for every completion order.
The model treats each increment-and-report as one atomic event. -/

def clamp99 (x : ℚ) : ℚ := min x (99 / 100)

/-- The counter values at which a phase with `n` tasks reports. -/
def reportPoints (n : Nat) : List Nat :=
  (List.range' 1 n).filter fun k => k % 50 == 0 || k == n

/-- `0.05 + 0.50 * (completed / total)`, clamped by `_progress`. -/
def dailyFrac (total k : Nat) : ℚ :=
  clamp99 (5 / 100 + 50 / 100 * ((k : ℚ) / (total : ℚ)))

/-- `0.62 + 0.30 * (completed / missing)`, clamped by `_progress`. -/
def feeFrac (missing k : Nat) : ℚ :=
  clamp99 (62 / 100 + 30 / 100 * ((k : ℚ) / (missing : ℚ)))

/-- The sequence of fractions delivered to the progress callback in one
PREEMPTION-FREE run of `fetch_all_etf_data`, i.e. a run in which each worker's
increment-check-compute-report block happens without interleaving: the fixed
phase marks 0.01, 0.05, 0.58, 0.62, 0.94, the coarse in-phase reports in
counter order, and the final unclamped 1.0.  `serialized_reach` below shows
the in-phase segments are exactly what a serialized schedule of the
interleaving model `PhaseStep` delivers; arbitrary schedules can deliver the
same values out of order (see the C9 counterexample). -/
def progressFractions (total missing : Nat) : List ℚ :=
  [clamp99 (1 / 100), clamp99 (5 / 100)]
    ++ (reportPoints total).map (dailyFrac total)
    ++ [clamp99 (58 / 100), clamp99 (62 / 100)]
    ++ (reportPoints missing).map (feeFrac missing)
    ++ [clamp99 (94 / 100), 1]

/-- The preemption-free progress fractions as a function of the instrument
universe and of the set of instruments whose fees are not cached. -/
def progressFractionsRun (codes missing_fee_codes : List String) : List ℚ :=
  progressFractions codes.length missing_fee_codes.length

/-! ### The interleaved in-phase reporting model

Each in-phase report in `fetch_all_etf_data` is produced by worker-thread code
of the shape `completed[0] += 1; if cond(completed[0]): pct = frac(completed[0]);
_progress(pct)` with no synchronization, running in up to 10 threads.  The
state below tracks how many tasks have not yet incremented, how many have
incremented but not yet read the counter, the fractions computed but not yet
delivered (a worker can be preempted between computing `pct` and invoking the
callback), the delivered sequence, and the shared counter.  Granularity: the
increment is one atomic event, and the condition check and `pct` computation
are one shared read; the source's separate re-reads only add further
interleavings whose delivered values are still `frac v` for a counter value
`1 ≤ v ≤ n`, so the bounds proved below are unaffected. -/

structure PhaseState where
  notYetInc : Nat
  incNotRead : Nat
  pendingReports : List ℚ
  delivered : List ℚ
  counter : Nat
deriving DecidableEq, Repr

/-- The phase start: `n` tasks pending, counter 0, nothing reported. -/
def phaseInit (n : Nat) : PhaseState :=
  ⟨n, 0, [], [], 0⟩

/-- One atomic event of the unsynchronized reporting code: a task increments
the shared counter; a task reads the counter and, per the
`% 50 == 0 or == total` condition, computes its fraction (or skips); a task
that computed a fraction delivers it — in any order relative to its siblings,
which models preemption between the `pct` computation and the callback. -/
inductive PhaseStep (n : Nat) (frac : Nat → ℚ) : PhaseState → PhaseState → Prop
  | inc : ∀ s : PhaseState, s.notYetInc ≠ 0 →
      PhaseStep n frac s
        ⟨s.notYetInc - 1, s.incNotRead + 1, s.pendingReports, s.delivered, s.counter + 1⟩
  | read_report : ∀ s : PhaseState, s.incNotRead ≠ 0 →
      (s.counter % 50 = 0 ∨ s.counter = n) →
      PhaseStep n frac s
        ⟨s.notYetInc, s.incNotRead - 1, frac s.counter :: s.pendingReports,
          s.delivered, s.counter⟩
  | read_skip : ∀ s : PhaseState, s.incNotRead ≠ 0 →
      ¬ (s.counter % 50 = 0 ∨ s.counter = n) →
      PhaseStep n frac s
        ⟨s.notYetInc, s.incNotRead - 1, s.pendingReports, s.delivered, s.counter⟩
  | deliver : ∀ (s : PhaseState) (x : ℚ) (pre post : List ℚ),
      s.pendingReports = pre ++ x :: post →
      PhaseStep n frac s
        ⟨s.notYetInc, s.incNotRead, pre ++ post, s.delivered ++ [x], s.counter⟩

/-- What a fully serialized schedule has delivered after its first `k` tasks:
the in-counter-order reports of the phase. -/
def serializedReports (n : Nat) (frac : Nat → ℚ) (k : Nat) : List ℚ :=
  ((List.range' 1 k).filter (fun v => v % 50 == 0 || v == n)).map frac

/-! ### Lemmas about the stable sort -/

theorem insertK_perm {α : Type} (key : α → Nat) (x : α) (l : List α) :
    (insertK key x l).Perm (x :: l) := by
  induction l with
  | nil => simp [insertK]
  | cons y ys ih =>
    simp only [insertK]
    split
    · exact List.Perm.refl _
    · exact (ih.cons y).trans (List.Perm.swap x y ys)

theorem sortK_perm {α : Type} (key : α → Nat) (l : List α) :
    (sortK key l).Perm l := by
  induction l with
  | nil => simp [sortK]
  | cons x xs ih => exact (insertK_perm key x (sortK key xs)).trans (ih.cons x)

theorem insertK_pairwise {α : Type} (key : α → Nat) (x : α) (l : List α)
    (h : l.Pairwise (fun a b => key a ≤ key b)) :
    (insertK key x l).Pairwise (fun a b => key a ≤ key b) := by
  induction l with
  | nil => simp [insertK]
  | cons y ys ih =>
    simp only [insertK]
    rcases List.pairwise_cons.mp h with ⟨hy, hys⟩
    by_cases hxy : key x ≤ key y
    · refine (if_pos hxy) ▸ List.pairwise_cons.mpr ⟨?_, h⟩
      intro b hb
      rcases List.mem_cons.mp hb with rfl | hb
      · exact hxy
      · exact hxy.trans (hy b hb)
    · refine (if_neg hxy) ▸ List.pairwise_cons.mpr ⟨?_, ih hys⟩
      intro b hb
      have hb' : b ∈ x :: ys := (insertK_perm key x ys).mem_iff.mp hb
      rcases List.mem_cons.mp hb' with rfl | hb'
      · omega
      · exact hy b hb'

theorem sortK_pairwise {α : Type} (key : α → Nat) (l : List α) :
    (sortK key l).Pairwise (fun a b => key a ≤ key b) := by
  induction l with
  | nil => simp [sortK]
  | cons x xs ih => exact insertK_pairwise key x (sortK key xs) ih

/-- Date-class stability: filtering one key value out of the sorted list gives
exactly the filter of the input (order of equal-key rows is preserved). -/
theorem insertK_filter_key {α : Type} (key : α → Nat) (x : α) (l : List α) (d : Nat) :
    (insertK key x l).filter (fun r => key r == d) =
      if key x = d then x :: l.filter (fun r => key r == d)
      else l.filter (fun r => key r == d) := by
  induction l with
  | nil =>
    simp only [insertK, List.filter]
    split <;> simp_all
  | cons y ys ih =>
    simp only [insertK]
    by_cases hxy : key x ≤ key y
    · rw [if_pos hxy]
      by_cases hx : key x = d <;> by_cases hy : key y = d <;>
        simp [List.filter_cons, hx, hy]
    · rw [if_neg hxy]
      rw [List.filter_cons, List.filter_cons, ih]
      by_cases hx : key x = d <;> by_cases hy : key y = d <;> simp_all

theorem sortK_filter_key {α : Type} (key : α → Nat) (l : List α) (d : Nat) :
    (sortK key l).filter (fun r => key r == d) = l.filter (fun r => key r == d) := by
  induction l with
  | nil => simp [sortK]
  | cons x xs ih =>
    simp only [sortK, insertK_filter_key, ih, List.filter_cons]
    by_cases hx : key x = d <;> simp [hx]

/-- Two sorted lists with identical key classes are equal: a sorted list is
determined by, for each key value, the subsequence of its rows with that key. -/
theorem sorted_ext_of_filter_key {α : Type} (key : α → Nat) (X : List α) :
    ∀ Y : List α, X.Pairwise (fun a b => key a ≤ key b) →
      Y.Pairwise (fun a b => key a ≤ key b) →
      (∀ d, X.filter (fun r => key r == d) = Y.filter (fun r => key r == d)) →
      X = Y := by
  induction X with
  | nil =>
    intro Y _ _ h
    cases Y with
    | nil => rfl
    | cons y Y' =>
      have := h (key y)
      simp at this
  | cons x X' ih =>
    intro Y hX hY h
    cases Y with
    | nil =>
      have := h (key x)
      simp at this
    | cons y Y' =>
      have hxmem : x ∈ y :: Y' := by
        have : x ∈ (y :: Y').filter (fun r => key r == key x) := by
          rw [← h (key x)]
          simp [List.filter_cons]
        exact List.mem_of_mem_filter this
      have hymem : y ∈ x :: X' := by
        have : y ∈ (x :: X').filter (fun r => key r == key y) := by
          rw [h (key y)]
          simp [List.filter_cons]
        exact List.mem_of_mem_filter this
      have hxy : key x = key y := by
        rcases List.mem_cons.mp hxmem with h1 | h1
        · rw [h1]
        · rcases List.mem_cons.mp hymem with h2 | h2
          · rw [h2]
          · have e1 := (List.pairwise_cons.mp hY).1 x h1
            have e2 := (List.pairwise_cons.mp hX).1 y h2
            omega
      have hd := h (key x)
      rw [List.filter_cons, List.filter_cons] at hd
      rw [← hxy] at hd
      simp only [beq_self_eq_true, if_true] at hd
      have hhead : x = y := (List.cons_eq_cons.mp hd).1
      subst hhead
      have htail : ∀ d, X'.filter (fun r => key r == d) = Y'.filter (fun r => key r == d) := by
        intro d
        have hd' := h d
        rw [List.filter_cons, List.filter_cons] at hd'
        by_cases hdx : key x = d
        · simp only [hdx, beq_self_eq_true, if_true] at hd'
          exact (List.cons_eq_cons.mp hd').2
        · have hb : (key x == d) = false := by simp [hdx]
          rw [hb] at hd'
          simpa using hd'
      exact congrArg (x :: ·)
        (ih Y' (List.pairwise_cons.mp hX).2 (List.pairwise_cons.mp hY).2 htail)

/-! ### Lemmas about the EWMA on constant series -/

theorem ewmGo_replicate (a c : ℚ) (n : Nat) :
    ewmGo a c (List.replicate n c) = List.replicate n c := by
  induction n with
  | zero => simp [ewmGo]
  | succ k ih =>
    simp only [List.replicate_succ, ewmGo]
    have he : a * c + (1 - a) * c = c := by ring
    rw [he, ih]

theorem ewm_mean_replicate (span n : Nat) (c : ℚ) :
    ewm_mean span (List.replicate n c) = List.replicate n c := by
  cases n with
  | zero => simp [ewm_mean]
  | succ k =>
    simp only [List.replicate_succ, ewm_mean]
    rw [ewmGo_replicate]

theorem zipWith_sub_replicate (n : Nat) (c : ℚ) :
    (List.replicate n c).zipWith (fun a b => a - b) (List.replicate n c) =
      List.replicate n 0 := by
  induction n with
  | zero => simp
  | succ k ih => simp [List.replicate_succ, ih]

theorem round4_zero : round4 0 = 0 := by
  simp [round4]

/-! ### Lemmas about the merge step -/

theorem filter_key_eq_nil (S : List SRow) (d : Nat) (hd : d ∉ S.map fun r => r.date) :
    S.filter (fun r => r.date == d) = [] := by
  rw [List.filter_eq_nil_iff]
  intro a ha
  simp only [beq_iff_eq]
  intro h
  exact hd (List.mem_map.mpr ⟨a, ha, h⟩)

theorem mergeRows_pairwise (P S : List SRow) :
    (mergeRows P S).Pairwise (fun a b => a.date ≤ b.date) := by
  simp only [mergeRows]
  exact sortK_pairwise _ _

theorem mergeRows_perm (P S : List SRow) :
    (mergeRows P S).Perm
      (if P ≠ [] then
        P.filter (fun r => !(decide (r.date ∈ S.map fun n => n.date))) ++ S
      else S) := by
  simp only [mergeRows]
  exact sortK_perm _ _

theorem mergeRows_ne_nil (P S : List SRow) (hS : S ≠ []) : mergeRows P S ≠ [] := by
  intro h
  have hperm := mergeRows_perm P S
  rw [h] at hperm
  have hcomb := hperm.symm.eq_nil
  by_cases hP : P ≠ []
  · rw [if_pos hP] at hcomb
    exact hS (List.append_eq_nil.mp hcomb).2
  · rw [if_neg hP] at hcomb
    exact hS hcomb

/-- Which rows of the merged dataset carry a given date: the snapshot's rows
for every date the snapshot covers, the previously persisted rows for every
other date. -/
theorem mergeRows_filter_key (P S : List SRow) (d : Nat) :
    (mergeRows P S).filter (fun r => r.date == d) =
      if d ∈ S.map (fun r => r.date) then S.filter (fun r => r.date == d)
      else P.filter (fun r => r.date == d) := by
  simp only [mergeRows]
  rw [sortK_filter_key]
  by_cases hP : P ≠ []
  · rw [if_pos hP, List.filter_append]
    by_cases hd : d ∈ S.map (fun r => r.date)
    · rw [if_pos hd]
      have hPnil : (P.filter (fun r => !(decide (r.date ∈ S.map fun n => n.date)))).filter
          (fun r => r.date == d) = [] := by
        rw [List.filter_eq_nil_iff]
        intro a ha
        have hmem := List.of_mem_filter ha
        simp only [Bool.not_eq_true', decide_eq_false_iff_not] at hmem
        simp only [beq_iff_eq]
        intro had
        exact hmem (had ▸ hd)
      rw [hPnil, List.nil_append]
    · rw [if_neg hd, filter_key_eq_nil S d hd, List.append_nil]
      rw [List.filter_filter]
      apply List.filter_congr
      intro a _
      by_cases had : a.date = d
      · have hnot : (decide (d ∈ S.map fun n => n.date)) = false := decide_eq_false hd
        simp [had, hnot]
        intro x hx h
        exact hd (List.mem_map.mpr ⟨x, hx, h⟩)
      · simp [had]
  · rw [if_neg hP]
    have hPnil : P = [] := not_not.mp hP
    by_cases hd : d ∈ S.map (fun r => r.date)
    · rw [if_pos hd]
    · rw [if_neg hd, filter_key_eq_nil S d hd, hPnil, List.filter_nil]

/-- The weekly MACD of a constant series of at least 35 bars: everything is a
computed zero and the turn signal is the computed 'none' value `""`. -/
theorem calculate_weekly_macd_const (b : WBar) (n : Nat) (hn : 35 ≤ n) :
    calculate_weekly_macd (some (List.replicate n b)) = (some 0, some 0, some 0, "") := by
  simp only [calculate_weekly_macd, List.length_replicate]
  rw [if_neg (by omega)]
  rw [List.map_replicate, ewm_mean_replicate, ewm_mean_replicate, zipWith_sub_replicate,
    ewm_mean_replicate, zipWith_sub_replicate, List.map_replicate, mul_zero]
  have h1 : ¬ (n = 0) := by omega
  have h2 : (2 : Nat) ≤ n := by omega
  have h3 : ¬ (n - 1 = 0) := by omega
  simp [List.getLast?_replicate, h1, h2, h3, round4_zero]

theorem uniqueKeys_mergeRows (P S : List SRow) (hP : uniqueKeys P) (hS : uniqueKeys S) :
    uniqueKeys (mergeRows P S) := by
  have hperm := (mergeRows_perm P S).map (fun r => (r.date, r.code))
  rw [uniqueKeys, hperm.nodup_iff]
  by_cases hPn : P ≠ []
  · rw [if_pos hPn, List.map_append, List.nodup_append]
    refine ⟨List.Nodup.sublist ((List.filter_sublist P).map _) hP, hS, ?_⟩
    intro k hk1 hk2
    rcases List.mem_map.mp hk1 with ⟨r, hr, rfl⟩
    rcases List.mem_map.mp hk2 with ⟨t, ht, hkey⟩
    have hpred := List.of_mem_filter hr
    simp only [Bool.not_eq_true', decide_eq_false_iff_not] at hpred
    have hdate : t.date = r.date := congrArg Prod.fst hkey
    exact hpred (List.mem_map.mpr ⟨t, ht, hdate⟩)
  · rw [if_neg hPn]
    exact hS

/-! ### Lemmas about the progress fractions -/

theorem reportPoints_mem {n k : Nat} (hk : k ∈ reportPoints n) : 1 ≤ k ∧ k ≤ n := by
  simp only [reportPoints, List.mem_filter, List.mem_range'] at hk
  omega

theorem reportPoints_pairwise (n : Nat) : (reportPoints n).Pairwise (· < ·) :=
  (List.pairwise_lt_range' 1 n).filter _

theorem dailyFrac_bounds (total k : Nat) (h1 : 1 ≤ k) (h2 : k ≤ total) :
    5 / 100 ≤ dailyFrac total k ∧ dailyFrac total k ≤ 55 / 100 := by
  have ht : (0 : ℚ) < (total : ℚ) := by
    have : 0 < total := by omega
    exact_mod_cast this
  have hdiv0 : (0 : ℚ) ≤ (k : ℚ) / (total : ℚ) := by positivity
  have hdiv1 : (k : ℚ) / (total : ℚ) ≤ 1 := by
    rw [div_le_one ht]
    exact_mod_cast h2
  constructor
  · apply le_min (by linarith) (by norm_num)
  · exact le_trans (min_le_left _ _) (by linarith)

theorem feeFrac_bounds (missing k : Nat) (h1 : 1 ≤ k) (h2 : k ≤ missing) :
    62 / 100 ≤ feeFrac missing k ∧ feeFrac missing k ≤ 92 / 100 := by
  have ht : (0 : ℚ) < (missing : ℚ) := by
    have : 0 < missing := by omega
    exact_mod_cast this
  have hdiv0 : (0 : ℚ) ≤ (k : ℚ) / (missing : ℚ) := by positivity
  have hdiv1 : (k : ℚ) / (missing : ℚ) ≤ 1 := by
    rw [div_le_one ht]
    exact_mod_cast h2
  constructor
  · apply le_min (by linarith) (by norm_num)
  · exact le_trans (min_le_left _ _) (by linarith)

theorem dailyFrac_mono (total : Nat) {k k' : Nat} (h : k ≤ k') :
    dailyFrac total k ≤ dailyFrac total k' := by
  unfold dailyFrac clamp99
  apply min_le_min _ le_rfl
  have hdiv : (k : ℚ) / (total : ℚ) ≤ (k' : ℚ) / (total : ℚ) := by
    rcases Nat.eq_zero_or_pos total with h0 | h0
    · simp [h0]
    · have ht : (0 : ℚ) < (total : ℚ) := by exact_mod_cast h0
      rw [div_le_div_iff_of_pos_right ht]
      exact_mod_cast h
  linarith

theorem feeFrac_mono (missing : Nat) {k k' : Nat} (h : k ≤ k') :
    feeFrac missing k ≤ feeFrac missing k' := by
  unfold feeFrac clamp99
  apply min_le_min _ le_rfl
  have hdiv : (k : ℚ) / (missing : ℚ) ≤ (k' : ℚ) / (missing : ℚ) := by
    rcases Nat.eq_zero_or_pos missing with h0 | h0
    · simp [h0]
    · have ht : (0 : ℚ) < (missing : ℚ) := by exact_mod_cast h0
      rw [div_le_div_iff_of_pos_right ht]
      exact_mod_cast h
  linarith

theorem dailyMap_pairwise (total : Nat) :
    ((reportPoints total).map (dailyFrac total)).Pairwise (· ≤ ·) :=
  (reportPoints_pairwise total).map _ (fun _ _ hab => dailyFrac_mono total (le_of_lt hab))

theorem feeMap_pairwise (missing : Nat) :
    ((reportPoints missing).map (feeFrac missing)).Pairwise (· ≤ ·) :=
  (reportPoints_pairwise missing).map _ (fun _ _ hab => feeFrac_mono missing (le_of_lt hab))

theorem dailyMap_mem (total : Nat) {x : ℚ}
    (hx : x ∈ (reportPoints total).map (dailyFrac total)) :
    5 / 100 ≤ x ∧ x ≤ 55 / 100 := by
  rcases List.mem_map.mp hx with ⟨k, hk, rfl⟩
  exact dailyFrac_bounds total k (reportPoints_mem hk).1 (reportPoints_mem hk).2

theorem feeMap_mem (missing : Nat) {x : ℚ}
    (hx : x ∈ (reportPoints missing).map (feeFrac missing)) :
    62 / 100 ≤ x ∧ x ≤ 92 / 100 := by
  rcases List.mem_map.mp hx with ⟨k, hk, rfl⟩
  exact feeFrac_bounds missing k (reportPoints_mem hk).1 (reportPoints_mem hk).2

theorem progressFractions_sorted_bounded (total missing : Nat) :
    (progressFractions total missing).Pairwise (· ≤ ·) ∧
      ∀ x ∈ progressFractions total missing, 0 ≤ x ∧ x ≤ 1 := by
  have e1 : clamp99 (1 / 100) = 1 / 100 := by norm_num [clamp99, min_def]
  have e5 : clamp99 (5 / 100) = 5 / 100 := by norm_num [clamp99, min_def]
  have e58 : clamp99 (58 / 100) = 58 / 100 := by norm_num [clamp99, min_def]
  have e62 : clamp99 (62 / 100) = 62 / 100 := by norm_num [clamp99, min_def]
  have e94 : clamp99 (94 / 100) = 94 / 100 := by norm_num [clamp99, min_def]
  simp only [progressFractions, e1, e5, e58, e62, e94, List.append_assoc]
  have hrest3 : ∀ b ∈ (reportPoints missing).map (feeFrac missing) ++ [(94 : ℚ) / 100, 1],
      62 / 100 ≤ b ∧ b ≤ 1 := by
    intro b hb
    rcases List.mem_append.mp hb with hb | hb
    · have := feeMap_mem missing hb
      constructor <;> linarith [this.1, this.2]
    · simp only [List.mem_cons, List.not_mem_nil, or_false] at hb
      rcases hb with rfl | rfl <;> norm_num
  have hrest2 : ∀ b ∈ ([(58 : ℚ) / 100, 62 / 100] ++
      ((reportPoints missing).map (feeFrac missing) ++ [(94 : ℚ) / 100, 1])),
      58 / 100 ≤ b ∧ b ≤ 1 := by
    intro b hb
    rcases List.mem_append.mp hb with hb | hb
    · simp only [List.mem_cons, List.not_mem_nil, or_false] at hb
      rcases hb with rfl | rfl <;> norm_num
    · have := hrest3 b hb
      constructor <;> linarith [this.1, this.2]
  have hrest1 : ∀ b ∈ ((reportPoints total).map (dailyFrac total) ++
      ([(58 : ℚ) / 100, 62 / 100] ++
        ((reportPoints missing).map (feeFrac missing) ++ [(94 : ℚ) / 100, 1]))),
      5 / 100 ≤ b ∧ b ≤ 1 := by
    intro b hb
    rcases List.mem_append.mp hb with hb | hb
    · have := dailyMap_mem total hb
      constructor <;> linarith [this.1, this.2]
    · have := hrest2 b hb
      constructor <;> linarith [this.1, this.2]
  constructor
  · rw [List.pairwise_append]
    refine ⟨by norm_num [List.pairwise_cons], ?_, ?_⟩
    · rw [List.pairwise_append]
      refine ⟨dailyMap_pairwise total, ?_, ?_⟩
      · rw [List.pairwise_append]
        refine ⟨by norm_num [List.pairwise_cons], ?_, ?_⟩
        · rw [List.pairwise_append]
          refine ⟨feeMap_pairwise missing, by norm_num [List.pairwise_cons], ?_⟩
          intro a ha b hb
          have ha' := feeMap_mem missing ha
          simp only [List.mem_cons, List.not_mem_nil, or_false] at hb
          rcases hb with rfl | rfl <;> linarith [ha'.2]
        · intro a ha b hb
          simp only [List.mem_cons, List.not_mem_nil, or_false] at ha
          have hb' := hrest3 b hb
          rcases ha with rfl | rfl <;> linarith [hb'.1]
      · intro a ha b hb
        have ha' := dailyMap_mem total ha
        have hb' := hrest2 b hb
        linarith [ha'.2, hb'.1]
    · intro a ha b hb
      simp only [List.mem_cons, List.not_mem_nil, or_false] at ha
      have hb' := hrest1 b hb
      rcases ha with rfl | rfl <;> linarith [hb'.1]
  · intro x hx
    rcases List.mem_append.mp hx with hx | hx
    · simp only [List.mem_cons, List.not_mem_nil, or_false] at hx
      rcases hx with rfl | rfl <;> norm_num
    · have := hrest1 x hx
      constructor <;> linarith [this.1, this.2]

/-- One step of a phase schedule preserves the reporting invariant: counter
and not-yet-incremented count sum to `n`, at most `counter` tasks sit between
increment and read, and every pending or delivered fraction lies in the band
determined by `frac` on counter values `1 ≤ v ≤ n`. -/
theorem phase_step_bounds (n : Nat) (frac : Nat → ℚ) (lo hi : ℚ)
    (hfrac : ∀ v, 1 ≤ v → v ≤ n → lo ≤ frac v ∧ frac v ≤ hi) (a b : PhaseState)
    (hab : PhaseStep n frac a b)
    (h1 : a.counter + a.notYetInc = n) (h2 : a.incNotRead ≤ a.counter)
    (h3 : ∀ x ∈ a.pendingReports, lo ≤ x ∧ x ≤ hi)
    (h4 : ∀ x ∈ a.delivered, lo ≤ x ∧ x ≤ hi) :
    b.counter + b.notYetInc = n ∧ b.incNotRead ≤ b.counter ∧
      (∀ x ∈ b.pendingReports, lo ≤ x ∧ x ≤ hi) ∧
      (∀ x ∈ b.delivered, lo ≤ x ∧ x ≤ hi) := by
  cases hab with
  | inc h =>
    refine ⟨?_, ?_, h3, h4⟩ <;> dsimp only <;> omega
  | read_report h hc =>
    refine ⟨h1, ?_, ?_, h4⟩
    · dsimp only
      omega
    · dsimp only
      intro x hx
      rcases List.mem_cons.mp hx with rfl | hx
      · exact hfrac a.counter (by omega) (by omega)
      · exact h3 x hx
  | read_skip h hc =>
    refine ⟨h1, ?_, h3, h4⟩
    dsimp only
    omega
  | deliver x pre post hp =>
    refine ⟨h1, h2, ?_, ?_⟩
    · dsimp only
      intro y hy
      exact h3 y (by rw [hp]; rcases List.mem_append.mp hy with h | h <;> simp [h])
    · dsimp only
      intro y hy
      rcases List.mem_append.mp hy with h | h
      · exact h4 y h
      · have hyx : y = x := by simpa using h
        exact hyx ▸ h3 x (by rw [hp]; simp)

/-- Any delivered fraction of any state reachable under any interleaving of a
phase lies in the band determined by `frac` on counter values `1 ≤ v ≤ n`. -/
theorem phase_reach_bounds (n : Nat) (frac : Nat → ℚ) (lo hi : ℚ)
    (hfrac : ∀ v, 1 ≤ v → v ≤ n → lo ≤ frac v ∧ frac v ≤ hi) (s : PhaseState)
    (hs : Relation.ReflTransGen (PhaseStep n frac) (phaseInit n) s) :
    ∀ x ∈ s.delivered, lo ≤ x ∧ x ≤ hi := by
  have key : s.counter + s.notYetInc = n ∧ s.incNotRead ≤ s.counter ∧
      (∀ x ∈ s.pendingReports, lo ≤ x ∧ x ≤ hi) ∧
      (∀ x ∈ s.delivered, lo ≤ x ∧ x ≤ hi) := by
    induction hs with
    | refl => exact ⟨by simp [phaseInit], by simp [phaseInit], by simp [phaseInit],
        by simp [phaseInit]⟩
    | tail _ hbc ih =>
      exact phase_step_bounds n frac lo hi hfrac _ _ hbc ih.1 ih.2.1 ih.2.2.1 ih.2.2.2
  exact key.2.2.2

/-- `k` increments (and nothing else) are a reachable prefix of any phase
schedule. -/
theorem phase_incs (n : Nat) (frac : Nat → ℚ) :
    ∀ k, k ≤ n → Relation.ReflTransGen (PhaseStep n frac) (phaseInit n)
      ⟨n - k, k, [], [], k⟩ := by
  intro k
  induction k with
  | zero => intro _; exact Relation.ReflTransGen.refl
  | succ k ih =>
    intro hk
    exact Relation.ReflTransGen.tail (ih (by omega))
      (PhaseStep.inc ⟨n - k, k, [], [], k⟩ (by show n - k ≠ 0; omega))

/-- The fully serialized schedule — every task runs increment, read and
delivery as an uninterrupted block — delivers exactly the in-counter-order
reports. -/
theorem serialized_reach (n : Nat) (frac : Nat → ℚ) :
    ∀ k, k ≤ n → Relation.ReflTransGen (PhaseStep n frac) (phaseInit n)
      ⟨n - k, 0, [], serializedReports n frac k, k⟩ := by
  intro k
  induction k with
  | zero => intro _; exact Relation.ReflTransGen.refl
  | succ k ih =>
    intro hk
    have hreach := ih (by omega)
    have s1 : PhaseStep n frac ⟨n - k, 0, [], serializedReports n frac k, k⟩
        ⟨n - k - 1, 1, [], serializedReports n frac k, k + 1⟩ :=
      PhaseStep.inc _ (by show n - k ≠ 0; omega)
    have hsplit0 : List.range' 1 (k + 1) = List.range' 1 k ++ [1 + 1 * k] :=
      List.range'_concat 1 k
    have hsplit : List.range' 1 (k + 1) = List.range' 1 k ++ [k + 1] := by
      simpa [Nat.add_comm] using hsplit0
    by_cases hc : (k + 1) % 50 = 0 ∨ (k + 1) = n
    · have hcb : ((k + 1) % 50 == 0 || (k + 1) == n) = true := by
        rcases hc with h | h <;> simp [h]
      have hD : serializedReports n frac (k + 1) =
          serializedReports n frac k ++ [frac (k + 1)] := by
        simp [serializedReports, hsplit, hcb]
      have s2 : PhaseStep n frac ⟨n - k - 1, 1, [], serializedReports n frac k, k + 1⟩
          ⟨n - k - 1, 0, [frac (k + 1)], serializedReports n frac k, k + 1⟩ :=
        PhaseStep.read_report _ (by show (1 : Nat) ≠ 0; omega) hc
      have s3 : PhaseStep n frac
          ⟨n - k - 1, 0, [frac (k + 1)], serializedReports n frac k, k + 1⟩
          ⟨n - k - 1, 0, [], serializedReports n frac k ++ [frac (k + 1)], k + 1⟩ :=
        PhaseStep.deliver _ (frac (k + 1)) [] [] rfl
      rw [hD]
      exact ((hreach.tail s1).tail s2).tail s3
    · have hcb : ((k + 1) % 50 == 0 || (k + 1) == n) = false := by
        simpa using hc
      have hD : serializedReports n frac (k + 1) = serializedReports n frac k := by
        simp [serializedReports, hsplit, hcb]
      have s2 : PhaseStep n frac ⟨n - k - 1, 1, [], serializedReports n frac k, k + 1⟩
          ⟨n - k - 1, 0, [], serializedReports n frac k, k + 1⟩ :=
        PhaseStep.read_skip _ (by show (1 : Nat) ≠ 0; omega) hc
      rw [hD]
      exact (hreach.tail s1).tail s2

/-! ## The claims -/

/-- Counterexample to claim C9: the delivered fractions are NOT monotone under
every interleaving.  With 51 instruments, a worker that computed the fraction
for counter value 50 can be preempted before invoking the callback; the
51st task then reports 0.55 first, after which the preempted worker delivers
≈ 0.5402 — a decreasing delivered pair, reachable in the interleaving model
of the unsynchronized reporting code. -/
theorem c9_counterexample :
    Relation.ReflTransGen (PhaseStep 51 (dailyFrac 51)) (phaseInit 51)
        ⟨0, 49, [], [dailyFrac 51 51, dailyFrac 51 50], 51⟩ ∧
      dailyFrac 51 50 < dailyFrac 51 51 ∧
      ¬ ([dailyFrac 51 51, dailyFrac 51 50].Pairwise (· ≤ ·)) := by
  have hlt : dailyFrac 51 50 < dailyFrac 51 51 := by
    norm_num [dailyFrac, clamp99, min_def]
  refine ⟨?_, hlt, ?_⟩
  · have h50 := phase_incs 51 (dailyFrac 51) 50 (by norm_num)
    have s2 : PhaseStep 51 (dailyFrac 51) ⟨1, 50, [], [], 50⟩
        ⟨1, 49, [dailyFrac 51 50], [], 50⟩ :=
      PhaseStep.read_report _ (by decide) (Or.inl (by decide))
    have s3 : PhaseStep 51 (dailyFrac 51) ⟨1, 49, [dailyFrac 51 50], [], 50⟩
        ⟨0, 50, [dailyFrac 51 50], [], 51⟩ :=
      PhaseStep.inc _ (by decide)
    have s4 : PhaseStep 51 (dailyFrac 51) ⟨0, 50, [dailyFrac 51 50], [], 51⟩
        ⟨0, 49, [dailyFrac 51 51, dailyFrac 51 50], [], 51⟩ :=
      PhaseStep.read_report _ (by decide) (Or.inr (by decide))
    have s5 : PhaseStep 51 (dailyFrac 51)
        ⟨0, 49, [dailyFrac 51 51, dailyFrac 51 50], [], 51⟩
        ⟨0, 49, [dailyFrac 51 50], [dailyFrac 51 51], 51⟩ :=
      PhaseStep.deliver _ (dailyFrac 51 51) [] [dailyFrac 51 50] rfl
    have s6 : PhaseStep 51 (dailyFrac 51) ⟨0, 49, [dailyFrac 51 50], [dailyFrac 51 51], 51⟩
        ⟨0, 49, [], [dailyFrac 51 51, dailyFrac 51 50], 51⟩ :=
      PhaseStep.deliver _ (dailyFrac 51 50) [] [] rfl
    exact ((((h50.tail s2).tail s3).tail s4).tail s5).tail s6
  · intro hpw
    have hle := (List.pairwise_cons.mp hpw).1 (dailyFrac 51 50) (by simp)
    exact absurd hle (not_le.mpr hlt)

/-- Claim C9, amended: under EVERY interleaving of the unsynchronized
increment/read/deliver steps, each fraction delivered in the daily phase lies
in [0.05, 0.55] and each fee-phase fraction in [0.62, 0.92] — so every
delivered fraction lies in [0, 1] — but monotone delivery is guaranteed only
for preemption-free schedules: the serialized schedule is a run of the same
model delivering exactly the in-order reports of `progressFractions`, and
that full preemption-free sequence is monotonically non-decreasing, within
[0, 1], and independent of which instruments complete when (it depends only
on the universe's size). -/
theorem c9_amended_progress (total missing : Nat) (s t : PhaseState)
    (hs : Relation.ReflTransGen (PhaseStep total (dailyFrac total)) (phaseInit total) s)
    (ht : Relation.ReflTransGen (PhaseStep missing (feeFrac missing)) (phaseInit missing) t) :
    (∀ x ∈ s.delivered, 5 / 100 ≤ x ∧ x ≤ 55 / 100) ∧
      (∀ x ∈ t.delivered, 62 / 100 ≤ x ∧ x ≤ 92 / 100) ∧
      Relation.ReflTransGen (PhaseStep total (dailyFrac total)) (phaseInit total)
        ⟨0, 0, [], (reportPoints total).map (dailyFrac total), total⟩ ∧
      (progressFractions total missing).Pairwise (· ≤ ·) ∧
      (∀ x ∈ progressFractions total missing, 0 ≤ x ∧ x ≤ 1) ∧
      ∀ codes codes' mc mc' : List String, codes.Perm codes' → mc.Perm mc' →
        progressFractionsRun codes mc = progressFractionsRun codes' mc' := by
  refine ⟨phase_reach_bounds total (dailyFrac total) _ _
      (fun v h1 h2 => dailyFrac_bounds total v h1 h2) s hs,
    phase_reach_bounds missing (feeFrac missing) _ _
      (fun v h1 h2 => feeFrac_bounds missing v h1 h2) t ht,
    ?_, (progressFractions_sorted_bounded total missing).1,
    (progressFractions_sorted_bounded total missing).2, ?_⟩
  · have h := serialized_reach total (dailyFrac total) total le_rfl
    rw [Nat.sub_self] at h
    exact h
  · intro codes codes' mc mc' h1 h2
    simp only [progressFractionsRun, h1.length_eq, h2.length_eq]

/-- Witness for C9 (amended) at the phase start states. -/
theorem c9_witness :
    (∀ x ∈ (phaseInit 1).delivered, 5 / 100 ≤ x ∧ x ≤ 55 / 100) ∧
      (∀ x ∈ (phaseInit 0).delivered, 62 / 100 ≤ x ∧ x ≤ 92 / 100) ∧
      Relation.ReflTransGen (PhaseStep 1 (dailyFrac 1)) (phaseInit 1)
        ⟨0, 0, [], (reportPoints 1).map (dailyFrac 1), 1⟩ ∧
      (progressFractions 1 0).Pairwise (· ≤ ·) ∧
      (∀ x ∈ progressFractions 1 0, 0 ≤ x ∧ x ≤ 1) ∧
      ∀ codes codes' mc mc' : List String, codes.Perm codes' → mc.Perm mc' →
        progressFractionsRun codes mc = progressFractionsRun codes' mc' :=
  c9_amended_progress 1 0 (phaseInit 1) (phaseInit 0)
    Relation.ReflTransGen.refl Relation.ReflTransGen.refl

/-- Claim C4: merging the identical snapshot twice is idempotent — the merged
dataset of the second merge equals that of the first, both as the pure
combine step and as the file persisted by an unraced `append_data_to_github`
run started from the once-merged state. -/
theorem c4_merge_idempotent (P S : List SRow) (hS : S ≠ []) (v : Nat) :
    mergeRows (mergeRows P S) S = mergeRows P S ∧
      ((append_data_to_github ⟨some (mergeRows P S), v⟩ id id (some S)).2).file =
        some (mergeRows P S) := by
  have hpure : mergeRows (mergeRows P S) S = mergeRows P S := by
    apply sorted_ext_of_filter_key (fun r => r.date) _ _
      (mergeRows_pairwise _ _) (mergeRows_pairwise _ _)
    intro d
    rw [mergeRows_filter_key, mergeRows_filter_key]
    by_cases hd : d ∈ S.map (fun r => r.date) <;> simp [hd]
  refine ⟨hpure, ?_⟩
  simp only [append_data_to_github]
  rw [if_neg hS]
  have hread : read_csv_from_github ⟨some (mergeRows P S), v⟩ = mergeRows P S := rfl
  rw [hread, hpure]
  simp only [write_csv_to_github, id_eq]
  rw [if_neg (mergeRows_ne_nil P S hS)]
  simp [githubPut, get_file_sha]

/-- Witness for C4 at a one-row snapshot over the empty dataset. -/
theorem c4_witness :
    ([⟨1, "A", "x"⟩] : List SRow) ≠ [] ∧
      (mergeRows (mergeRows [] [⟨1, "A", "x"⟩]) [⟨1, "A", "x"⟩] =
          mergeRows [] [⟨1, "A", "x"⟩] ∧
        ((append_data_to_github ⟨some (mergeRows [] [⟨1, "A", "x"⟩]), 0⟩ id id
              (some [⟨1, "A", "x"⟩])).2).file =
          some (mergeRows [] [⟨1, "A", "x"⟩])) :=
  ⟨by decide, c4_merge_idempotent [] [⟨1, "A", "x"⟩] (by decide) 0⟩

/-- Counterexample to claim C1: an instrument whose daily fetch fails is NOT
absent from the snapshot.  With universe {"159001", "510001"} and the
"510001" fetch returning `Unavailable`, the Step-5 loop still appends a row
for every code, so the snapshot's code column is exactly the universe —
including "510001". -/
theorem c1_counterexample :
    (fun c : String => if c = "159001" then some [(⟨100, 1, 1, 1, 1, 1⟩ : DBar)] else none)
        "510001" = none ∧
      (fetch_all_etf_data_rows ["159001", "510001"] (fun _ => none) (fun _ => none)
          (fun c => if c = "159001" then some [⟨100, 1, 1, 1, 1, 1⟩] else none) 200).map
          (fun r => r.code) = ["159001", "510001"] := by
  constructor
  · simp
  · rfl

/-- Claim C1, amended: every instrument of the universe contributes exactly
one row, in universe order, even when its daily fetch returned `Unavailable`;
a failed instrument's row carries the unavailable markers (`None` numbers,
"N/A" relation, empty signals) and today's date, and each row depends only on
its own instrument's fetched data, so other instruments are unaffected. -/
theorem c1_amended_failed_fetch_row (codes : List String) (nm : String → Option String)
    (fees : String → Option (String × String)) (daily : String → Option (List DBar))
    (today : Nat) (c : String) (hc : daily c = none) :
    (fetch_all_etf_data_rows codes nm fees daily today).map (fun r => r.code) = codes ∧
      (∀ r ∈ fetch_all_etf_data_rows codes nm fees daily today, r.code = c →
        r.latest_close = none ∧ r.ma60 = none ∧ r.ma60_rel = "N/A" ∧ r.ma_cross = "" ∧
        r.dif = none ∧ r.dea = none ∧ r.macd = none ∧ r.macd_turn = "" ∧ r.date = today) ∧
      ∀ daily' : String → Option (List DBar), (∀ c', c' ≠ c → daily' c' = daily c') →
        ∀ c'' ∈ codes, c'' ≠ c →
          (fetch_all_etf_data_rows codes nm fees daily' today).filter
              (fun r => r.code == c'') =
            (fetch_all_etf_data_rows codes nm fees daily today).filter
              (fun r => r.code == c'') := by
  refine ⟨?_, ?_, ?_⟩
  · show (codes.map fun code => buildRow nm fees today (daily code) code).map
        (fun r => r.code) = codes
    rw [List.map_map]
    have hfun : ((fun r : IndicatorRow => r.code) ∘
        fun code => buildRow nm fees today (daily code) code) = fun code => code := rfl
    rw [hfun]
    exact codes.map_id'
  · intro r hr hrc
    rcases List.mem_map.mp hr with ⟨c0, _, rfl⟩
    have hc0 : c0 = c := hrc
    subst hc0
    rw [show buildRow nm fees today (daily c0) c0 =
        buildRow nm fees today none c0 from by rw [hc]]
    exact ⟨rfl, rfl, rfl, rfl, rfl, rfl, rfl, rfl, rfl⟩
  · intro daily' hd' c'' _ hne
    show (codes.map fun code => buildRow nm fees today (daily' code) code).filter
          (fun r => r.code == c'') =
        (codes.map fun code => buildRow nm fees today (daily code) code).filter
          (fun r => r.code == c'')
    rw [List.filter_map, List.filter_map]
    have hp1 : ((fun r : IndicatorRow => r.code == c'') ∘
        fun code => buildRow nm fees today (daily' code) code) = fun x => x == c'' := rfl
    have hp2 : ((fun r : IndicatorRow => r.code == c'') ∘
        fun code => buildRow nm fees today (daily code) code) = fun x => x == c'' := rfl
    rw [hp1, hp2]
    apply List.map_congr_left
    intro x hx
    have hxc : x = c'' := by
      have := List.of_mem_filter hx
      simpa using this
    rw [hd' x (by rw [hxc]; exact hne)]

/-- Witness for C1 (amended): a one-instrument universe whose only fetch
fails still yields a snapshot with that instrument's row. -/
theorem c1_witness :
    ((fun _ : String => (none : Option (List DBar))) "x" = none) ∧
      (fetch_all_etf_data_rows ["x"] (fun _ => none) (fun _ => none)
          (fun _ => none) 7).map (fun r => r.code) = ["x"] :=
  ⟨rfl, (c1_amended_failed_fetch_row ["x"] (fun _ => none) (fun _ => none)
    (fun _ => none) 7 "x" rfl).1⟩

/-- Counterexample to claim C3: `save_to_csv` removes prior rows only for the
FIRST new row's date.  A two-date snapshot (dates 2 and 1, in that order)
merged into a cache holding a row for instrument "A" at date 1 leaves the old
(A, 1) row in place next to the new one, violating
at-most-one-row-per-(instrument, date). -/
theorem c3_counterexample :
    uniqueKeys [⟨1, "A", "old"⟩] ∧
      uniqueKeys [⟨2, "A", "n2"⟩, ⟨1, "A", "n1"⟩] ∧
      save_to_csv (some [⟨1, "A", "old"⟩]) (some [⟨2, "A", "n2"⟩, ⟨1, "A", "n1"⟩]) =
        some [⟨1, "A", "old"⟩, ⟨2, "A", "n2"⟩, ⟨1, "A", "n1"⟩] ∧
      ¬ uniqueKeys [⟨1, "A", "old"⟩, ⟨2, "A", "n2"⟩, ⟨1, "A", "n1"⟩] :=
  ⟨by decide, by decide, by decide, by decide⟩

/-- Claim C3, amended: the remote merge `append_data_to_github` preserves the
at-most-one-row-per-(instrument, date) invariant and fully replaces the prior
rows of every date the snapshot covers; the local cache `save_to_csv` does so
only for single-date snapshots, where it replaces exactly the first (= only)
date's rows. -/
theorem c3_amended_merge_invariant (P S : List SRow) (hP : uniqueKeys P)
    (hS : uniqueKeys S) :
    (uniqueKeys (mergeRows P S) ∧
      ∀ d, d ∈ S.map (fun r => r.date) →
        (mergeRows P S).filter (fun r => r.date == d) = S.filter (fun r => r.date == d)) ∧
    ∀ d0, (∀ r ∈ S, r.date = d0) → S ≠ [] →
      save_to_csv (some P) (some S) = some (P.filter (fun r => r.date ≠ d0) ++ S) ∧
      uniqueKeys (P.filter (fun r => r.date ≠ d0) ++ S) ∧
      (P.filter (fun r => r.date ≠ d0) ++ S).filter (fun r => r.date == d0) = S := by
  refine ⟨⟨uniqueKeys_mergeRows P S hP hS, ?_⟩, ?_⟩
  · intro d hd
    rw [mergeRows_filter_key, if_pos hd]
  · intro d0 hall hne
    obtain ⟨a, S', rfl⟩ := List.exists_cons_of_ne_nil hne
    have ha : a.date = d0 := hall a (List.mem_cons_self a S')
    refine ⟨?_, ?_, ?_⟩
    · have hsv : save_to_csv (some P) (some (a :: S')) =
          some (P.filter (fun r => r.date ≠ a.date) ++ (a :: S')) := by
        simp [save_to_csv]
      rw [ha] at hsv
      exact hsv
    · rw [uniqueKeys, List.map_append, List.nodup_append]
      refine ⟨List.Nodup.sublist ((List.filter_sublist P).map _) hP, hS, ?_⟩
      intro k hk1 hk2
      rcases List.mem_map.mp hk1 with ⟨r, hr, rfl⟩
      rcases List.mem_map.mp hk2 with ⟨t, ht, hkey⟩
      have hpred := List.of_mem_filter hr
      simp only [decide_eq_true_eq] at hpred
      have hdate : t.date = r.date := congrArg Prod.fst hkey
      have htd : t.date = d0 := hall t ht
      omega
    · rw [List.filter_append]
      have h1 : (P.filter (fun r => r.date ≠ d0)).filter (fun r => r.date == d0) = [] := by
        rw [List.filter_filter, List.filter_eq_nil_iff]
        intro b _
        by_cases hbd : b.date = d0 <;> simp [hbd]
      rw [h1, List.nil_append, List.filter_eq_self]
      intro x hx
      simp [hall x hx]

/-- Witness for C3 (amended): a one-row snapshot into a one-row dataset keeps
the invariant. -/
theorem c3_witness :
    uniqueKeys ([⟨1, "A", "old"⟩] : List SRow) ∧
      uniqueKeys ([⟨1, "A", "new"⟩] : List SRow) ∧
      uniqueKeys (mergeRows [⟨1, "A", "old"⟩] [⟨1, "A", "new"⟩]) :=
  ⟨by decide, by decide,
    (c3_amended_merge_invariant _ _ (by decide) (by decide)).1.1⟩

/-- Counterexample to claim C2: the write of `append_data_to_github` is not
conditioned on a token read together with the initial dataset read — the raw
read carries no token and the SHA is fetched afresh inside
`write_csv_to_github`.  A competing writer lands row (3, "C") between the
initial read and the SHA fetch; the merge then returns success (not a
conflict) and the final file no longer contains the competitor's row: a
silent lost update. -/
theorem c2_counterexample :
    append_data_to_github ⟨some [⟨1, "A", "a"⟩], 0⟩
        (fun t => (githubPut t [⟨3, "C", "c"⟩] (get_file_sha t)).2) id
        (some [⟨2, "B", "b"⟩]) =
      (true, ⟨some [⟨1, "A", "a"⟩, ⟨2, "B", "b"⟩], 2⟩) ∧
    (githubPut ⟨some [⟨1, "A", "a"⟩], 0⟩ [⟨3, "C", "c"⟩]
        (get_file_sha ⟨some [⟨1, "A", "a"⟩], 0⟩)).2 =
      ⟨some [⟨3, "C", "c"⟩], 1⟩ ∧
    (⟨3, "C", "c"⟩ : SRow) ∉ [(⟨1, "A", "a"⟩ : SRow), ⟨2, "B", "b"⟩] :=
  ⟨by decide, by decide, by decide⟩

/-- Claim C2, amended: the write-back is conditioned on the SHA fetched by
`write_csv_to_github` immediately before the `PUT` (not on a token from the
initial dataset read).  If another write changes the version between that SHA
fetch and the `PUT`, the merge fails (`False`, the conflict outcome) and the
merge writes nothing: the store is exactly as the competing writer left it. -/
theorem c2_amended_conflict_window (s : Store) (mid : Store → Store) (nd : List SRow)
    (hnd : nd ≠ []) (hf : s.file.isSome) (hv : (mid s).version ≠ s.version) :
    append_data_to_github s id mid (some nd) = (false, mid s) := by
  simp only [append_data_to_github]
  rw [if_neg hnd]
  simp only [write_csv_to_github, id_eq]
  rw [if_neg (mergeRows_ne_nil _ _ hnd)]
  obtain ⟨R, hR⟩ : ∃ R, s.file = some R := Option.isSome_iff_exists.mp hf
  simp only [get_file_sha, hR, Option.map_some']
  cases hms : (mid s).file with
  | none => simp [githubPut, hms]
  | some T =>
    simp only [githubPut, hms]
    rw [if_neg (fun h => hv h.symm)]

/-- Witness for C2 (amended): a competing version bump between SHA fetch and
`PUT` makes the merge fail and leave the store to the competitor. -/
theorem c2_witness :
    ([⟨2, "B", "b"⟩] : List SRow) ≠ [] ∧
      (Store.mk (some [⟨1, "A", "a"⟩]) 0).file.isSome ∧
      ((fun t : Store => Store.mk t.file (t.version + 1)) ⟨some [⟨1, "A", "a"⟩], 0⟩).version ≠
        (Store.mk (some [⟨1, "A", "a"⟩]) 0).version ∧
      append_data_to_github ⟨some [⟨1, "A", "a"⟩], 0⟩ id
          (fun t : Store => Store.mk t.file (t.version + 1)) (some [⟨2, "B", "b"⟩]) =
        (false, (fun t : Store => Store.mk t.file (t.version + 1)) ⟨some [⟨1, "A", "a"⟩], 0⟩) :=
  ⟨by decide, by decide, by decide,
    c2_amended_conflict_window ⟨some [⟨1, "A", "a"⟩], 0⟩
      (fun t : Store => Store.mk t.file (t.version + 1)) [⟨2, "B", "b"⟩]
      (by decide) (by decide) (by decide)⟩

/-- Claim C10: merging a `None` or empty snapshot (`append_data_to_github`
with `new_data` `None`/empty, or `write_csv_to_github` with an empty frame)
returns failure (`False`) and performs no write to the remote store — the
persisted dataset is returned unchanged — for every store state and any
concurrent activity. -/
theorem c10_empty_snapshot_no_write :
    ∀ (s : Store) (m1 m2 : Store → Store),
      append_data_to_github s m1 m2 none = (false, s) ∧
      append_data_to_github s m1 m2 (some []) = (false, s) ∧
      write_csv_to_github s m2 none = (false, s) ∧
      write_csv_to_github s m2 (some []) = (false, s) := by
  intro s m1 m2
  exact ⟨rfl, by simp [append_data_to_github], rfl, by simp [write_csv_to_github]⟩

/-- Claim C7: for every daily series with fewer than 61 bars the crossover
signal returned by `calculate_ma60_relation` is the empty string (the 'none'
value).  Determinism for a fixed input is definitional: the embedding is a
pure function of the series. -/
theorem c7_cross_none_below_61 (df : List DBar) (h : df.length < 61) :
    (calculate_ma60_relation (some df)).2.2.2 = "" := by
  simp only [calculate_ma60_relation, if_pos h]
  by_cases h60 : 60 ≤ df.length <;> simp [h60]

/-- Witness for C7 at the empty series. -/
theorem c7_witness :
    ([] : List DBar).length < 61 ∧
      (calculate_ma60_relation (some ([] : List DBar))).2.2.2 = "" :=
  ⟨by decide, c7_cross_none_below_61 [] (by decide)⟩

/-- Claim C6: with at least 60 daily bars the SMA-60 relation is defined
(never "N/A"), and it is the 'above' label exactly when the reported latest
close is ≥ the reported SMA-60 (ties count as 'above'), the 'below' label
exactly when it is strictly smaller. -/
theorem c6_sma60_relation (df : List DBar) (h : 60 ≤ df.length) :
    ∃ lc ma rel cr, calculate_ma60_relation (some df) = (some lc, some ma, rel, cr) ∧
      rel ≠ "N/A" ∧ (rel = "≥ 60日均线" ↔ ma ≤ lc) ∧ (rel = "< 60日均线" ↔ lc < ma) := by
  have hrel : ∀ lc ma : ℚ,
      ((if lc ≥ ma then "≥ 60日均线" else "< 60日均线") ≠ "N/A") ∧
      (((if lc ≥ ma then "≥ 60日均线" else "< 60日均线") = "≥ 60日均线") ↔ ma ≤ lc) ∧
      (((if lc ≥ ma then "≥ 60日均线" else "< 60日均线") = "< 60日均线") ↔ lc < ma) := by
    intro lc ma
    by_cases hc : lc ≥ ma
    · refine ⟨by rw [if_pos hc]; decide, ?_, ?_⟩
      · rw [if_pos hc]; exact ⟨fun _ => hc, fun _ => rfl⟩
      · rw [if_pos hc]
        exact ⟨fun hcontra => absurd hcontra (by decide), fun hlt => absurd hlt (not_lt.mpr hc)⟩
    · refine ⟨by rw [if_neg hc]; decide, ?_, ?_⟩
      · rw [if_neg hc]
        exact ⟨fun hcontra => absurd hcontra (by decide), fun hle => absurd hle hc⟩
      · rw [if_neg hc]; exact ⟨fun _ => lt_of_not_ge hc, fun _ => rfl⟩
  by_cases h61 : df.length < 61
  · simp only [calculate_ma60_relation, if_pos h61, if_pos h]
    exact ⟨_, _, _, _, rfl, (hrel _ _).1, (hrel _ _).2.1, (hrel _ _).2.2⟩
  · simp only [calculate_ma60_relation, if_neg h61]
    exact ⟨_, _, _, _, rfl, (hrel _ _).1, (hrel _ _).2.1, (hrel _ _).2.2⟩

/-- Witness for C6 at a constant 60-bar series. -/
theorem c6_witness :
    60 ≤ (List.replicate 60 (⟨0, 1, 1, 1, 1, 1⟩ : DBar)).length ∧
      ∃ lc ma rel cr,
        calculate_ma60_relation (some (List.replicate 60 (⟨0, 1, 1, 1, 1, 1⟩ : DBar))) =
            (some lc, some ma, rel, cr) ∧
          rel ≠ "N/A" ∧ (rel = "≥ 60日均线" ↔ ma ≤ lc) ∧ (rel = "< 60日均线" ↔ lc < ma) :=
  ⟨by simp, c6_sma60_relation _ (by simp)⟩

/-- Counterexample to claim C5: `get_etf_daily_kline_sina` does not
deduplicate equal dates.  Two distinct bars sharing date 5 both survive in the
returned series, where the claim demands that only the last occurrence be
kept. -/
theorem c5_counterexample :
    get_etf_daily_kline_sina (some [⟨5, 1, 1, 1, 1, 1⟩, ⟨5, 2, 2, 2, 2, 2⟩]) =
        some [⟨5, 1, 1, 1, 1, 1⟩, ⟨5, 2, 2, 2, 2, 2⟩] ∧
      (⟨5, 1, 1, 1, 1, 1⟩ : DBar).date = (⟨5, 2, 2, 2, 2, 2⟩ : DBar).date ∧
      (⟨5, 1, 1, 1, 1, 1⟩ : DBar) ≠ (⟨5, 2, 2, 2, 2, 2⟩ : DBar) := by
  refine ⟨rfl, rfl, ?_⟩
  intro hco
  have : (1 : ℚ) = 2 := congrArg DBar.close hco
  norm_num at this

/-- Claim C5, amended: a successfully returned series is (weakly) ascending by
date and is a permutation of the upstream input — sorting happens, but
duplicate-date bars are all retained rather than reduced to the last
occurrence. -/
theorem c5_amended_sorted_no_dedup (l m : List DBar)
    (h : get_etf_daily_kline_sina (some l) = some m) :
    m.Pairwise (fun a b => a.date ≤ b.date) ∧ m.Perm l := by
  simp only [get_etf_daily_kline_sina] at h
  by_cases he : l.isEmpty
  · rw [if_pos he] at h
    obtain rfl : l = m := Option.some.inj h
    exact ⟨by simp [List.isEmpty_iff.mp he], List.Perm.refl l⟩
  · rw [if_neg he] at h
    obtain rfl : sortK (fun b => b.date) l = m := Option.some.inj h
    exact ⟨sortK_pairwise _ l, sortK_perm _ l⟩

/-- Witness for C5 (amended) at a two-bar out-of-order series. -/
theorem c5_witness :
    get_etf_daily_kline_sina (some [⟨2, 0, 0, 0, 0, 0⟩, ⟨1, 0, 0, 0, 0, 0⟩]) =
        some [⟨1, 0, 0, 0, 0, 0⟩, ⟨2, 0, 0, 0, 0, 0⟩] ∧
      ([⟨1, 0, 0, 0, 0, 0⟩, ⟨2, 0, 0, 0, 0, 0⟩] : List DBar).Pairwise
        (fun a b => a.date ≤ b.date) ∧
      ([⟨1, 0, 0, 0, 0, 0⟩, ⟨2, 0, 0, 0, 0, 0⟩] : List DBar).Perm
        [⟨2, 0, 0, 0, 0, 0⟩, ⟨1, 0, 0, 0, 0, 0⟩] := by
  have hEq : get_etf_daily_kline_sina (some [⟨2, 0, 0, 0, 0, 0⟩, ⟨1, 0, 0, 0, 0, 0⟩]) =
      some [⟨1, 0, 0, 0, 0, 0⟩, ⟨2, 0, 0, 0, 0, 0⟩] := rfl
  exact ⟨hEq, (c5_amended_sorted_no_dedup _ _ hEq).1, (c5_amended_sorted_no_dedup _ _ hEq).2⟩

/-- Counterexample to claim C8: the turn-signal 'unavailable' marker is NOT
distinguishable from a computed 'none' signal.  A 34-bar weekly series (below
the 26+9 threshold) yields turn signal `""`; a 35-bar constant series is fully
computed (its histogram is `some 0`, a computed zero) and yields the very same
turn signal `""`. -/
theorem c8_counterexample :
    calculate_weekly_macd (some (List.replicate 34 (⟨0, 1, 1, 1, 1, 1⟩ : WBar))) =
        (none, none, none, "") ∧
      (calculate_weekly_macd (some (List.replicate 35 (⟨0, 1, 1, 1, 1, 1⟩ : WBar)))).2.2.2 =
        "" ∧
      (calculate_weekly_macd (some (List.replicate 35 (⟨0, 1, 1, 1, 1, 1⟩ : WBar)))).2.2.1 =
        some 0 := by
  have h35 : calculate_weekly_macd (some (List.replicate 35 (⟨0, 1, 1, 1, 1, 1⟩ : WBar))) =
      (some 0, some 0, some 0, "") :=
    calculate_weekly_macd_const _ 35 (by norm_num)
  refine ⟨by simp [calculate_weekly_macd], ?_, ?_⟩ <;> rw [h35]

/-- Claim C8, amended: with fewer than 35 (= 26 + 9) weekly bars
`calculate_weekly_macd` returns the unavailable marker `None` for the three
numeric outputs (distinguishable from any computed value `some q`) and the
empty string for the turn signal — which is the same value as a computed
'none' turn signal, so for that fourth field the marker is not
distinguishable. -/
theorem c8_amended_insufficient_history (w : List WBar) (h : w.length < 35) :
    calculate_weekly_macd (some w) = (none, none, none, "") := by
  simp only [calculate_weekly_macd]
  rw [if_pos (by omega : w.length < 26 + 9)]

/-- Witness for C8 (amended) at the empty weekly series. -/
theorem c8_witness :
    ([] : List WBar).length < 35 ∧
      calculate_weekly_macd (some ([] : List WBar)) = (none, none, none, "") :=
  ⟨by decide, c8_amended_insufficient_history [] (by decide)⟩

end ETFQuant
